import Mathlib

/-!
Shallow embedding of the `leb128-rs` LEB128 codec (`src/lib.rs`).

The Rust crate implements the buffered profile only: `to_leb128u` /
`to_leb128i` encode one integer into a byte vector, and `from_leb128u` /
`from_leb128i` decode one integer from a byte slice, accumulating into a
128-bit intermediate (`u128` resp. `i128`) and narrowing with `try_from`.

The four unsigned widths (`u8`, `u16`, `u32`, `u64`) share one macro body
whose bit-level behaviour depends only on the numeric value, so a value in
range is embedded as a `Nat`; the width `w` enters only through the final
`try_from` narrowing.  Signed values are embedded as `Int`; the Rust
arithmetic right shift `>> 7` on a two's-complement signed integer is floor
division by 128 (`Int.ediv` for the positive divisor 128), and `& 0x7F` is
the nonnegative remainder `Int.emod`.  The `u128`/`i128` accumulator is
embedded as its 128-bit pattern, a `Nat` reduced mod `2 ^ 128` exactly where
the Rust shift discards high bits; `toSigned128` reads the pattern back as
the two's-complement value, which is what `i128 -> iN` `try_from` inspects.

Bytes are `Nat`s; the code only ever inspects `byte & 0x7F`, `byte & 0x80`
and `byte & 0x40`, embedded as `&&& 127`, `&&& 128`, `&&& 64`.
-/

set_option maxRecDepth 4000

namespace Leb128

/-- `FromLeb128Error` from `src/lib.rs` (the `TryFromIntError` payload of
`TryFromInt` carries no information relevant to the embedding). -/
inductive FromLeb128Error where
  | TooLongBytes
  | TryFromInt
deriving DecidableEq, Repr

/-- `to_leb128u` (macro `impl_to_leb128u`, `src/lib.rs` lines 5-31): take the
low 7 bits, logically shift right by 7; if the remainder is zero emit the
final byte, else emit with the continuation bit (`| 0b10000000`) and loop. -/
def toLeb128u (v : Nat) : List Nat :=
  if h : v / 128 = 0 then
    [v % 128]
  else
    (v % 128 ||| 128) :: toLeb128u (v / 128)
termination_by v
decreasing_by
  omega

/-- `to_leb128i` (macro `impl_to_leb128i`, `src/lib.rs` lines 37-63): take the
low 7 bits, arithmetically shift right by 7 (floor division by 128); stop and
emit the final byte when the remainder is 0 and bit 6 of the group is clear,
or the remainder is -1 and bit 6 is set; else emit with the continuation bit. -/
def toLeb128i (v : Int) : List Nat :=
  if h : (Int.ediv v 128 = 0 ∧ (Int.emod v 128).toNat &&& 64 = 0) ∨
      (Int.ediv v 128 = -1 ∧ (Int.emod v 128).toNat &&& 64 ≠ 0) then
    [(Int.emod v 128).toNat]
  else
    ((Int.emod v 128).toNat ||| 128) :: toLeb128i (Int.ediv v 128)
termination_by v.natAbs
decreasing_by
  have h0 : v ≠ 0 := by
    rintro rfl
    exact h (Or.inl ⟨by decide, by decide⟩)
  have h1 : v ≠ -1 := by
    rintro rfl
    exact h (Or.inr ⟨by decide, by decide⟩)
  have h2 : Int.emod v 128 + 128 * Int.ediv v 128 = v := Int.emod_add_ediv v 128
  have h3 : 0 ≤ Int.emod v 128 := Int.emod_nonneg v (by norm_num)
  have h4 : Int.emod v 128 < 128 := Int.emod_lt_of_pos v (by norm_num)
  omega

/-- The `<$uint>::try_from(result)` narrowing of the `u128` accumulator at
the end of `from_leb128u`: succeeds exactly when the value fits `w` bits. -/
def tryFromU (w : Nat) (result : Nat) : Except FromLeb128Error Nat :=
  if result < 2 ^ w then .ok result else .error .TryFromInt

/-- `from_leb128u` loop (`src/lib.rs` lines 100-111), one step per input
byte: OR the 7 payload bits into the accumulator at the current shift (the
`u128` shift discards bits above bit 127, hence the `% 2 ^ 128`), advance the
shift by 7, fail with `TooLongBytes` once the shift reaches 128, and stop at
a byte with a clear continuation bit.  Falling off the end of the input
leaves the loop silently. -/
def fromLeb128uGo (w : Nat) : List Nat → Nat → Nat → Except FromLeb128Error Nat
  | [], result, _ => tryFromU w result
  | byte :: rest, result, shift =>
    if 128 ≤ shift + 7 then .error .TooLongBytes
    else if byte &&& 128 = 0 then
      tryFromU w (result ||| ((byte &&& 127) <<< shift) % 2 ^ 128)
    else
      fromLeb128uGo w rest (result ||| ((byte &&& 127) <<< shift) % 2 ^ 128) (shift + 7)

/-- `from_leb128u` (macro `impl_from_leb128u`, `src/lib.rs` lines 91-120). -/
def from_leb128u (w : Nat) (input : List Nat) : Except FromLeb128Error Nat :=
  fromLeb128uGo w input 0 0

/-- Read a 128-bit pattern as the two's-complement value of the `i128`
accumulator. -/
def toSigned128 (n : Nat) : Int :=
  if n < 2 ^ 127 then (n : Int) else (n : Int) - 2 ^ 128

/-- The `<$iint>::try_from(result)` narrowing of the `i128` accumulator at
the end of `from_leb128i`: succeeds exactly when the signed value fits the
`w`-bit two's-complement range. -/
def tryFromI (w : Nat) (result : Nat) : Except FromLeb128Error Int :=
  if -(2 ^ (w - 1) : Int) ≤ toSigned128 result ∧ toSigned128 result < 2 ^ (w - 1) then
    .ok (toSigned128 result)
  else .error .TryFromInt

/-- `from_leb128i` loop (`src/lib.rs` lines 138-152): as the unsigned loop,
but on a terminating byte with bit 6 set the accumulator is sign-extended by
OR-ing all bits from the (already advanced) shift upward with ones
(`result |= !0 << shift`, whose `i128` bit pattern is `2^128 - 2^shift`). -/
def fromLeb128iGo (w : Nat) : List Nat → Nat → Nat → Except FromLeb128Error Int
  | [], result, _ => tryFromI w result
  | byte :: rest, result, shift =>
    if 128 ≤ shift + 7 then .error .TooLongBytes
    else if byte &&& 128 = 0 then
      if byte &&& 64 ≠ 0 then
        tryFromI w ((result ||| ((byte &&& 127) <<< shift) % 2 ^ 128) |||
          (2 ^ 128 - 2 ^ (shift + 7)))
      else
        tryFromI w (result ||| ((byte &&& 127) <<< shift) % 2 ^ 128)
    else
      fromLeb128iGo w rest (result ||| ((byte &&& 127) <<< shift) % 2 ^ 128) (shift + 7)

/-- `from_leb128i` (macro `impl_from_leb128i`, `src/lib.rs` lines 129-161). -/
def from_leb128i (w : Nat) (input : List Nat) : Except FromLeb128Error Int :=
  fromLeb128iGo w input 0 0

/-- The plain base-128 value of the 7-bit payloads of a byte list, in
little-endian group order; the decoders' accumulator equals
`lebPayload consumedBytes * 2 ^ startShift + startAcc`. -/
def lebPayload : List Nat → Nat
  | [] => 0
  | b :: rest => (b &&& 127) + 128 * lebPayload rest

/-- How many leading bytes the buffered decoders consume: everything up to
and including the first byte with a clear continuation bit, or the whole
list when no such byte occurs. -/
def consumedLen : List Nat → Nat
  | [] => 0
  | b :: rest => if b &&& 128 = 0 then 1 else 1 + consumedLen rest

/-- Error type of the streaming decoder described by the spec (§6-§7):
`Malformed` unifies over-length termination and non-canonical padding
violations, `Io` wraps read failures including end of input. -/
inductive FromLeb128StreamError where
  | Malformed
  | Io
deriving DecidableEq, Repr

/-- Modelled from the spec: the streaming unsigned decoder (spec §4.3) is not
part of `src/` — only the buffered codec is — so its behaviour is modelled
from the spec's words.  It reads one byte at a time (an exhausted source is
an `Io` error, §7), accumulates into an accumulator of exactly the target
width `w`, fails with `Malformed` when a byte arrives after the shift has
consumed the whole width (§4.3/§7 over-length termination), validates in the
last partial group that the payload does not set any bit beyond the
remaining bit budget (§4.3), and rejects non-canonical sequences — a
terminating byte past the first position whose payload contributes nothing
(§3: "Non-canonical sequences (extra continuation bytes whose payload does
not change the decoded value) are … rejected by the streaming decoder", §8)
— with `Malformed`. -/
def streamFromLeb128uGo (w : Nat) : List Nat → Nat → Nat → Except FromLeb128StreamError Nat
  | [], _, _ => .error .Io
  | byte :: rest, result, shift =>
    if w ≤ shift then .error .Malformed
    else if w - shift < 7 ∧ 2 ^ (w - shift) ≤ byte &&& 127 then .error .Malformed
    else if byte &&& 128 = 0 then
      if 0 < shift ∧ byte &&& 127 = 0 then .error .Malformed
      else .ok (result ||| (byte &&& 127) <<< shift)
    else
      streamFromLeb128uGo w rest (result ||| (byte &&& 127) <<< shift) (shift + 7)

/-- Modelled from the spec: entry point of the streaming unsigned decoder
(see `streamFromLeb128uGo`). -/
def streamFromLeb128u (w : Nat) (input : List Nat) : Except FromLeb128StreamError Nat :=
  streamFromLeb128uGo w input 0 0

/-! ### Bit-level helper lemmas -/

/-- Masking with `0x7F` is reduction mod 128. -/
theorem and127_eq_mod (b : Nat) : b &&& 127 = b % 128 := by
  have h := Nat.and_pow_two_sub_one_eq_mod b 7
  norm_num at h
  exact h

/-- Testing a single bit via `&&&` is testing the corresponding binary digit. -/
theorem and_two_pow_eq_zero_iff (b i : Nat) : b &&& 2 ^ i = 0 ↔ b / 2 ^ i % 2 = 0 := by
  constructor
  · intro h
    have h2 := congrArg (fun n => n.testBit i) h
    simp only [Nat.testBit_and, Nat.testBit_two_pow_self, Bool.and_true,
      Nat.zero_testBit] at h2
    rw [Nat.testBit_to_div_mod] at h2
    simp only [decide_eq_false_iff_not] at h2
    omega
  · intro h
    apply Nat.eq_of_testBit_eq
    intro j
    simp only [Nat.testBit_and, Nat.testBit_two_pow, Nat.zero_testBit]
    by_cases hj : i = j
    · subst hj
      simp [Nat.testBit_to_div_mod, h]
    · simp [hj]

/-- `byte & 0x80 == 0` tests bit 7. -/
theorem and128_eq_zero_iff (b : Nat) : b &&& 128 = 0 ↔ b / 128 % 2 = 0 := by
  have h := and_two_pow_eq_zero_iff b 7
  norm_num at h
  exact h

/-- `byte & 0x40 == 0` tests bit 6. -/
theorem and64_eq_zero_iff (b : Nat) : b &&& 64 = 0 ↔ b / 64 % 2 = 0 := by
  have h := and_two_pow_eq_zero_iff b 6
  norm_num at h
  exact h

/-- OR-ing a value below `2 ^ s` with a multiple of `2 ^ s` is addition. -/
theorem lor_shiftLeft_eq_add {a : Nat} (b s : Nat) (h : a < 2 ^ s) :
    a ||| b <<< s = a + b * 2 ^ s := by
  rw [Nat.shiftLeft_eq, Nat.lor_comm, Nat.mul_comm b (2 ^ s), ← Nat.mul_add_lt_is_or h b]
  omega

/-- Setting the continuation bit on a 7-bit group is adding 128. -/
theorem lor128_eq_add {d : Nat} (h : d < 128) : d ||| 128 = d + 128 := by
  have e7 : (2 : Nat) ^ 7 = 128 := by norm_num
  have h2 := lor_shiftLeft_eq_add (a := d) 1 7 (by rw [e7]; exact h)
  rw [show ((1 : Nat) <<< 7) = 128 from rfl] at h2
  rw [e7] at h2
  omega

/-- OR-ing the sign-extension mask `!0 << t` (pattern `2^128 - 2^t`) into an
accumulator below `2 ^ t` is addition. -/
theorem lor_highMask_eq_add {x : Nat} (t : Nat) (hx : x < 2 ^ t) (ht : t ≤ 128) :
    x ||| (2 ^ 128 - 2 ^ t) = x + (2 ^ 128 - 2 ^ t) := by
  have epow : (2 : Nat) ^ (128 - t) * 2 ^ t = 2 ^ 128 := by
    rw [← Nat.pow_add]
    congr 1
    omega
  have key : (2 : Nat) ^ 128 - 2 ^ t = (2 ^ (128 - t) - 1) * 2 ^ t := by
    rw [Nat.sub_mul, one_mul, epow]
  have h2 := lor_shiftLeft_eq_add (a := x) (2 ^ (128 - t) - 1) t hx
  rw [Nat.shiftLeft_eq] at h2
  rw [key]
  exact h2

/-- A payload shifted by at most 120 bits stays below `2 ^ 128`. -/
theorem payload_shift_lt {b s : Nat} (hs : s ≤ 120) : (b &&& 127) <<< s < 2 ^ 128 := by
  rw [Nat.shiftLeft_eq]
  have h1 : b &&& 127 < 128 := by
    rw [and127_eq_mod]
    omega
  have h2 : (b &&& 127) * 2 ^ s < 128 * 2 ^ s :=
    Nat.mul_lt_mul_of_lt_of_le h1 (Nat.le_refl _) (Nat.two_pow_pos s)
  have h3 : (128 : Nat) * 2 ^ s = 2 ^ (s + 7) := by
    rw [Nat.pow_add]
    norm_num
    exact Nat.mul_comm _ _
  have h4 : (2 : Nat) ^ (s + 7) ≤ 2 ^ 128 := Nat.pow_le_pow_right (by norm_num) (by omega)
  omega

/-- One accumulation step of the buffered decoders, rewritten additively. -/
theorem step_result {acc b s : Nat} (hacc : acc < 2 ^ s) (hs : s ≤ 120) :
    acc ||| ((b &&& 127) <<< s) % 2 ^ 128 = acc + (b &&& 127) * 2 ^ s := by
  rw [Nat.mod_eq_of_lt (payload_shift_lt hs), lor_shiftLeft_eq_add _ _ hacc]

/-- The accumulator stays below `2 ^ (s + 7)` after a step at shift `s`. -/
theorem step_result_lt {acc b s : Nat} (hacc : acc < 2 ^ s) :
    acc + (b &&& 127) * 2 ^ s < 2 ^ (s + 7) := by
  have h1 : b &&& 127 < 128 := by
    rw [and127_eq_mod]
    omega
  have h2 : (b &&& 127) * 2 ^ s ≤ 127 * 2 ^ s := Nat.mul_le_mul_right _ (by omega)
  have h3 : (2 : Nat) ^ (s + 7) = 2 ^ s * 128 := by
    rw [Nat.pow_add]
  omega

/-- A continuation byte emitted by an encoder has bit 7 set. -/
theorem cont_of_lor128 {d : Nat} (hd : d < 128) : (d ||| 128) &&& 128 ≠ 0 := by
  rw [lor128_eq_add hd, Ne, and128_eq_zero_iff]
  omega

/-- The payload of a continuation byte `d ||| 128` with `d < 128` is `d`. -/
theorem payload_of_lor128 {d : Nat} (hd : d < 128) : (d ||| 128) &&& 127 = d := by
  rw [lor128_eq_add hd, and127_eq_mod]
  omega

/-- A byte below 128 has a clear continuation bit. -/
theorem term_byte_and128 {d : Nat} (hd : d < 128) : d &&& 128 = 0 := by
  rw [and128_eq_zero_iff]
  omega

/-- A byte below 128 is its own payload. -/
theorem term_byte_and127 {d : Nat} (hd : d < 128) : d &&& 127 = d := by
  rw [and127_eq_mod]
  omega

/-! ### Unfolding and length lemmas for the encoders -/

/-- `toLeb128u` emits the final byte when the shifted value is zero. -/
theorem toLeb128u_stop {v : Nat} (h : v / 128 = 0) : toLeb128u v = [v % 128] := by
  rw [toLeb128u.eq_def, dif_pos h]

/-- `toLeb128u` emits a continuation byte when the shifted value is nonzero. -/
theorem toLeb128u_go {v : Nat} (h : ¬v / 128 = 0) :
    toLeb128u v = (v % 128 ||| 128) :: toLeb128u (v / 128) := by
  rw [toLeb128u.eq_def, dif_neg h]

/-- `toLeb128i` emits the final byte exactly under the dual sign condition. -/
theorem toLeb128i_stop {v : Int}
    (h : (Int.ediv v 128 = 0 ∧ (Int.emod v 128).toNat &&& 64 = 0) ∨
      (Int.ediv v 128 = -1 ∧ (Int.emod v 128).toNat &&& 64 ≠ 0)) :
    toLeb128i v = [(Int.emod v 128).toNat] := by
  rw [toLeb128i.eq_def, dif_pos h]

/-- `toLeb128i` emits a continuation byte when the dual sign condition fails. -/
theorem toLeb128i_go {v : Int}
    (h : ¬((Int.ediv v 128 = 0 ∧ (Int.emod v 128).toNat &&& 64 = 0) ∨
      (Int.ediv v 128 = -1 ∧ (Int.emod v 128).toNat &&& 64 ≠ 0))) :
    toLeb128i v = ((Int.emod v 128).toNat ||| 128) :: toLeb128i (Int.ediv v 128) := by
  rw [toLeb128i.eq_def, dif_neg h]

/-- Every unsigned encoding has at least one byte. -/
theorem toLeb128u_length_pos (v : Nat) : 1 ≤ (toLeb128u v).length := by
  by_cases h : v / 128 = 0
  · rw [toLeb128u_stop h]
    simp
  · rw [toLeb128u_go h]
    simp

/-- A value below `2 ^ (7 * (k + 1))` encodes in at most `k + 1` bytes. -/
theorem toLeb128u_length_le : ∀ (k v : Nat), v < 2 ^ (7 * (k + 1)) →
    (toLeb128u v).length ≤ k + 1
  | 0, v, hv => by
    have h : v / 128 = 0 := by
      norm_num at hv
      omega
    rw [toLeb128u_stop h]
    simp
  | k + 1, v, hv => by
    by_cases h : v / 128 = 0
    · rw [toLeb128u_stop h]
      simp
    · rw [toLeb128u_go h]
      simp only [List.length_cons]
      have e : (2 : Nat) ^ (7 * (k + 1 + 1)) = 2 ^ (7 * (k + 1)) * 128 := by
        rw [show 7 * (k + 1 + 1) = 7 * (k + 1) + 7 by ring, Nat.pow_add]
      have hv2 : v / 128 < 2 ^ (7 * (k + 1)) := by omega
      have := toLeb128u_length_le k (v / 128) hv2
      omega

/-- Every signed encoding has at least one byte. -/
theorem toLeb128i_length_pos (v : Int) : 1 ≤ (toLeb128i v).length := by
  rw [toLeb128i.eq_def]
  split <;> simp

/-- A value in `[-2 ^ (7k + 6), 2 ^ (7k + 6))` encodes in at most `k + 1`
bytes under the signed termination rule. -/
theorem toLeb128i_length_le : ∀ (k : Nat) (v : Int), -(2 ^ (7 * k + 6) : Int) ≤ v →
    v < 2 ^ (7 * k + 6) → (toLeb128i v).length ≤ k + 1
  | 0, v, hl, hr => by
    norm_num at hl hr
    have hdm : Int.emod v 128 + 128 * Int.ediv v 128 = v := Int.emod_add_ediv v 128
    have hm0 : 0 ≤ Int.emod v 128 := Int.emod_nonneg v (by norm_num)
    have hm1 : Int.emod v 128 < 128 := Int.emod_lt_of_pos v (by norm_num)
    have h : (Int.ediv v 128 = 0 ∧ (Int.emod v 128).toNat &&& 64 = 0) ∨
        (Int.ediv v 128 = -1 ∧ (Int.emod v 128).toNat &&& 64 ≠ 0) := by
      rcases le_or_lt 0 v with h0 | h0
      · left
        refine ⟨by omega, ?_⟩
        rw [and64_eq_zero_iff]
        omega
      · right
        refine ⟨by omega, ?_⟩
        rw [Ne, and64_eq_zero_iff]
        omega
    rw [toLeb128i_stop h]
    simp
  | k + 1, v, hl, hr => by
    by_cases h : (Int.ediv v 128 = 0 ∧ (Int.emod v 128).toNat &&& 64 = 0) ∨
        (Int.ediv v 128 = -1 ∧ (Int.emod v 128).toNat &&& 64 ≠ 0)
    · rw [toLeb128i_stop h]
      simp
    · rw [toLeb128i_go h]
      simp only [List.length_cons]
      have e : (2 : Int) ^ (7 * (k + 1) + 6) = 2 ^ (7 * k + 6) * 128 := by
        rw [show 7 * (k + 1) + 6 = 7 * k + 6 + 7 by ring, pow_add]
        norm_num
      rw [e] at hl hr
      have hdm : Int.emod v 128 + 128 * Int.ediv v 128 = v := Int.emod_add_ediv v 128
      have hm0 : 0 ≤ Int.emod v 128 := Int.emod_nonneg v (by norm_num)
      have hm1 : Int.emod v 128 < 128 := Int.emod_lt_of_pos v (by norm_num)
      have hb1 : -(2 ^ (7 * k + 6) : Int) ≤ Int.ediv v 128 := by omega
      have hb2 : Int.ediv v 128 < 2 ^ (7 * k + 6) := by omega
      have := toLeb128i_length_le k (Int.ediv v 128) hb1 hb2
      omega

/-- The base-128 payload value of a list is bounded by its length. -/
theorem lebPayload_lt : ∀ (L : List Nat), lebPayload L < 2 ^ (7 * L.length)
  | [] => by simp [lebPayload]
  | b :: rest => by
    have h1 : b &&& 127 < 128 := by
      rw [and127_eq_mod]
      omega
    have h2 := lebPayload_lt rest
    simp only [lebPayload, List.length_cons]
    have e : (2 : Nat) ^ (7 * (rest.length + 1)) = 2 ^ (7 * rest.length) * 128 := by
      rw [show 7 * (rest.length + 1) = 7 * rest.length + 7 by ring, Nat.pow_add]
    omega

/-- The decoders never consume more bytes than the input holds. -/
theorem consumedLen_le : ∀ (L : List Nat), consumedLen L ≤ L.length
  | [] => by simp [consumedLen]
  | b :: rest => by
    simp only [consumedLen, List.length_cons]
    have := consumedLen_le rest
    split <;> omega

/-! ### Inversion helpers for the narrowing steps -/

/-- The final narrowing never produces `TooLongBytes` (unsigned). -/
theorem tryFromU_ne_tooLong (w r : Nat) : tryFromU w r ≠ .error .TooLongBytes := by
  unfold tryFromU
  split <;> simp

/-- The final narrowing never produces `TooLongBytes` (signed). -/
theorem tryFromI_ne_tooLong (w r : Nat) : tryFromI w r ≠ .error .TooLongBytes := by
  unfold tryFromI
  split <;> simp

/-- A successful unsigned narrowing returns the accumulator itself. -/
theorem tryFromU_eq_ok {w r : Nat} {u : Nat} (h : tryFromU w r = .ok u) : u = r := by
  unfold tryFromU at h
  split at h
  · simpa [eq_comm] using h
  · simp at h

/-- A successful signed narrowing returns the two's-complement reading of the
accumulator. -/
theorem tryFromI_eq_ok {w r : Nat} {u : Int} (h : tryFromI w r = .ok u) :
    u = toSigned128 r := by
  unfold tryFromI at h
  split at h
  · simpa [eq_comm] using h
  · simp at h

/-- Adding a 7-bit group at shift `s` keeps the accumulator below `2^(s+7)`. -/
theorem acc_step_lt {acc d s : Nat} (hacc : acc < 2 ^ s) (hd : d < 128) :
    acc + d * 2 ^ s < 2 ^ (s + 7) := by
  have h2 : d * 2 ^ s ≤ 127 * 2 ^ s := Nat.mul_le_mul_right _ (by omega)
  have h3 : (2 : Nat) ^ (s + 7) = 2 ^ s * 128 := by
    rw [Nat.pow_add]
  omega

/-- The payload of any byte is a 7-bit group. -/
theorem and127_lt (b : Nat) : b &&& 127 < 128 := by
  rw [and127_eq_mod]
  omega

/-! ### The decoding loops on structured inputs -/

/-- On an input consisting only of continuation bytes (and short enough not
to exhaust the shift budget), the unsigned loop accumulates every payload and
falls off the end of the input into the narrowing step. -/
theorem uGo_allCont (w : Nat) : ∀ (input : List Nat) (acc shift : Nat),
    (∀ b ∈ input, b &&& 128 ≠ 0) → shift + 7 * input.length ≤ 127 → acc < 2 ^ shift →
    fromLeb128uGo w input acc shift = tryFromU w (acc + lebPayload input * 2 ^ shift)
  | [], acc, shift, _, _, _ => by
    simp [fromLeb128uGo, lebPayload]
  | byte :: rest, acc, shift, hc, hl, hacc => by
    simp only [List.length_cons] at hl
    have hs : shift ≤ 120 := by omega
    have hcont : ¬byte &&& 128 = 0 := hc byte (by simp)
    have hrec := uGo_allCont w rest (acc + (byte &&& 127) * 2 ^ shift) (shift + 7)
      (fun b hb => hc b (by simp [hb])) (by omega) (step_result_lt hacc)
    simp only [fromLeb128uGo]
    rw [if_neg (by omega : ¬128 ≤ shift + 7), if_neg hcont, step_result hacc hs, hrec]
    congr 1
    simp only [lebPayload]
    rw [Nat.pow_add]
    ring

/-- Signed version of `uGo_allCont`: without a terminating byte no
sign-extension happens, so the loops agree up to the final narrowing. -/
theorem iGo_allCont (w : Nat) : ∀ (input : List Nat) (acc shift : Nat),
    (∀ b ∈ input, b &&& 128 ≠ 0) → shift + 7 * input.length ≤ 127 → acc < 2 ^ shift →
    fromLeb128iGo w input acc shift = tryFromI w (acc + lebPayload input * 2 ^ shift)
  | [], acc, shift, _, _, _ => by
    simp [fromLeb128iGo, lebPayload]
  | byte :: rest, acc, shift, hc, hl, hacc => by
    simp only [List.length_cons] at hl
    have hs : shift ≤ 120 := by omega
    have hcont : ¬byte &&& 128 = 0 := hc byte (by simp)
    have hrec := iGo_allCont w rest (acc + (byte &&& 127) * 2 ^ shift) (shift + 7)
      (fun b hb => hc b (by simp [hb])) (by omega) (step_result_lt hacc)
    simp only [fromLeb128iGo]
    rw [if_neg (by omega : ¬128 ≤ shift + 7), if_neg hcont, step_result hacc hs, hrec]
    congr 1
    simp only [lebPayload]
    rw [Nat.pow_add]
    ring

/-- On an input of the form `p ++ b :: rest` with `p` all-continuation bytes
within the shift budget and `b` terminating, the unsigned loop stops at `b`,
ignores `rest`, and narrows the accumulated payload of `p ++ [b]`. -/
theorem uGo_split (w : Nat) : ∀ (p : List Nat) (b : Nat) (rest : List Nat) (acc shift : Nat),
    (∀ x ∈ p, x &&& 128 ≠ 0) → b &&& 128 = 0 → shift + 7 * (p.length + 1) ≤ 127 →
    acc < 2 ^ shift →
    fromLeb128uGo w (p ++ b :: rest) acc shift =
      tryFromU w (acc + lebPayload (p ++ [b]) * 2 ^ shift)
  | [], b, rest, acc, shift, _, hb, hl, hacc => by
    simp only [List.length_nil] at hl
    simp only [List.nil_append, fromLeb128uGo]
    rw [if_neg (by omega : ¬128 ≤ shift + 7), if_pos hb, step_result hacc (by omega)]
    congr 1
  | x :: p, b, rest, acc, shift, hp, hb, hl, hacc => by
    simp only [List.length_cons] at hl
    have hs : shift ≤ 113 := by omega
    have hcont : ¬x &&& 128 = 0 := hp x (by simp)
    have hrec := uGo_split w p b rest (acc + (x &&& 127) * 2 ^ shift) (shift + 7)
      (fun y hy => hp y (by simp [hy])) hb (by omega) (step_result_lt hacc)
    simp only [List.cons_append, List.append_eq, fromLeb128uGo]
    rw [if_neg (by omega : ¬128 ≤ shift + 7), if_neg hcont, step_result hacc (by omega), hrec]
    congr 1
    simp only [List.cons_append, List.append_eq, lebPayload]
    rw [Nat.pow_add]
    ring

/-- Signed version of `uGo_split`.  When the terminating byte has bit 6 set
the sign-extension mask `2^128 - 2^(shift + 7*(p.length+1))` is added. -/
theorem iGo_split (w : Nat) : ∀ (p : List Nat) (b : Nat) (rest : List Nat) (acc shift : Nat),
    (∀ x ∈ p, x &&& 128 ≠ 0) → b &&& 128 = 0 → shift + 7 * (p.length + 1) ≤ 127 →
    acc < 2 ^ shift →
    fromLeb128iGo w (p ++ b :: rest) acc shift =
      (if b &&& 64 = 0 then
        tryFromI w (acc + lebPayload (p ++ [b]) * 2 ^ shift)
      else
        tryFromI w (acc + lebPayload (p ++ [b]) * 2 ^ shift +
          (2 ^ 128 - 2 ^ (shift + 7 * (p.length + 1)))))
  | [], b, rest, acc, shift, _, hb, hl, hacc => by
    simp only [List.length_nil] at hl
    simp only [List.nil_append, fromLeb128iGo]
    rw [if_neg (by omega : ¬128 ≤ shift + 7), if_pos hb, step_result hacc (by omega)]
    by_cases h6 : b &&& 64 = 0
    · rw [if_neg (by simp [h6] : ¬b &&& 64 ≠ 0), if_pos h6]
      congr 1
    · rw [if_pos h6, if_neg h6]
      rw [lor_highMask_eq_add (shift + 7) (step_result_lt hacc) (by omega)]
      congr 1
  | x :: p, b, rest, acc, shift, hp, hb, hl, hacc => by
    simp only [List.length_cons] at hl
    have hs : shift ≤ 113 := by omega
    have hcont : ¬x &&& 128 = 0 := hp x (by simp)
    have hrec := iGo_split w p b rest (acc + (x &&& 127) * 2 ^ shift) (shift + 7)
      (fun y hy => hp y (by simp [hy])) hb (by omega) (step_result_lt hacc)
    simp only [List.cons_append, List.append_eq, fromLeb128iGo]
    rw [if_neg (by omega : ¬128 ≤ shift + 7), if_neg hcont, step_result hacc (by omega), hrec]
    by_cases h6 : b &&& 64 = 0
    · rw [if_pos h6, if_pos h6]
      congr 1
      simp only [List.cons_append, List.append_eq, lebPayload]
      rw [Nat.pow_add]
      ring
    · rw [if_neg h6, if_neg h6]
      have hval : acc + (x &&& 127) * 2 ^ shift + lebPayload (p ++ [b]) * 2 ^ (shift + 7) =
          acc + lebPayload (x :: (p ++ [b])) * 2 ^ shift := by
        simp only [lebPayload]
        rw [Nat.pow_add]
        ring
      have hexp : shift + 7 + 7 * (p.length + 1) = shift + 7 * (p.length + 1 + 1) := by ring
      simp only [List.length_cons, List.cons_append, List.append_eq]
      rw [hexp]
      exact congrArg (tryFromI w) (by omega)

/-- Two's-complement reading of a pattern below `2 ^ 127`. -/
theorem toSigned128_small {n : Nat} (h : n < 2 ^ 127) : toSigned128 n = (n : Int) := by
  rw [toSigned128, if_pos h]

/-- Two's-complement reading of a pattern with bit 127 set. -/
theorem toSigned128_large {n : Nat} (h : 2 ^ 127 ≤ n) :
    toSigned128 n = (n : Int) - 2 ^ 128 := by
  rw [toSigned128, if_neg (by omega)]

/-- The unsigned loop at shift `7 * j` fails with `TooLongBytes` exactly when
the remaining budget of `18 - j` continuation bytes is filled and a further
byte exists; the shift guard fires on the `(19 - j)`-th byte regardless of
that byte's continuation bit. -/
theorem uGo_tooLong (w : Nat) : ∀ (input : List Nat) (acc j : Nat), j ≤ 18 →
    (fromLeb128uGo w input acc (7 * j) = .error .TooLongBytes ↔
      19 - j ≤ input.length ∧ ∀ b ∈ input.take (18 - j), b &&& 128 ≠ 0)
  | [], acc, j, hj => by
    simp only [fromLeb128uGo, List.length_nil]
    constructor
    · intro h
      exact absurd h (tryFromU_ne_tooLong _ _)
    · rintro ⟨h1, _⟩
      omega
  | byte :: rest, acc, j, hj => by
    simp only [fromLeb128uGo, List.length_cons]
    by_cases h18 : j = 18
    · subst h18
      rw [if_pos (by omega : 128 ≤ 7 * 18 + 7)]
      simp
    · have hj17 : j ≤ 17 := by omega
      rw [if_neg (by omega : ¬128 ≤ 7 * j + 7)]
      by_cases hb : byte &&& 128 = 0
      · rw [if_pos hb]
        constructor
        · intro h
          exact absurd h (tryFromU_ne_tooLong _ _)
        · rintro ⟨h1, h2⟩
          have hmem : byte ∈ (byte :: rest).take (18 - j) := by
            rw [show 18 - j = 17 - j + 1 by omega, List.take_succ_cons]
            exact List.mem_cons_self _ _
          exact absurd hb (h2 byte hmem)
      · rw [if_neg hb]
        rw [show 7 * j + 7 = 7 * (j + 1) by ring]
        rw [uGo_tooLong w rest (acc ||| ((byte &&& 127) <<< (7 * j)) % 2 ^ 128) (j + 1)
          (by omega)]
        rw [show 18 - j = 18 - (j + 1) + 1 by omega, List.take_succ_cons]
        constructor
        · rintro ⟨h1, h2⟩
          refine ⟨by omega, ?_⟩
          intro b hbm
          rcases List.mem_cons.mp hbm with rfl | hbm2
          · exact hb
          · exact h2 b hbm2
        · rintro ⟨h1, h2⟩
          exact ⟨by omega, fun b hbm => h2 b (List.mem_cons_of_mem _ hbm)⟩

/-- Signed analogue of `uGo_tooLong`: the guard behaves identically. -/
theorem iGo_tooLong (w : Nat) : ∀ (input : List Nat) (acc j : Nat), j ≤ 18 →
    (fromLeb128iGo w input acc (7 * j) = .error .TooLongBytes ↔
      19 - j ≤ input.length ∧ ∀ b ∈ input.take (18 - j), b &&& 128 ≠ 0)
  | [], acc, j, hj => by
    simp only [fromLeb128iGo, List.length_nil]
    constructor
    · intro h
      exact absurd h (tryFromI_ne_tooLong _ _)
    · rintro ⟨h1, _⟩
      omega
  | byte :: rest, acc, j, hj => by
    simp only [fromLeb128iGo, List.length_cons]
    by_cases h18 : j = 18
    · subst h18
      rw [if_pos (by omega : 128 ≤ 7 * 18 + 7)]
      simp
    · have hj17 : j ≤ 17 := by omega
      rw [if_neg (by omega : ¬128 ≤ 7 * j + 7)]
      by_cases hb : byte &&& 128 = 0
      · rw [if_pos hb]
        constructor
        · intro h
          by_cases h64 : byte &&& 64 ≠ 0
          · rw [if_pos h64] at h
            exact absurd h (tryFromI_ne_tooLong _ _)
          · rw [if_neg h64] at h
            exact absurd h (tryFromI_ne_tooLong _ _)
        · rintro ⟨h1, h2⟩
          have hmem : byte ∈ (byte :: rest).take (18 - j) := by
            rw [show 18 - j = 17 - j + 1 by omega, List.take_succ_cons]
            exact List.mem_cons_self _ _
          exact absurd hb (h2 byte hmem)
      · rw [if_neg hb]
        rw [show 7 * j + 7 = 7 * (j + 1) by ring]
        rw [iGo_tooLong w rest (acc ||| ((byte &&& 127) <<< (7 * j)) % 2 ^ 128) (j + 1)
          (by omega)]
        rw [show 18 - j = 18 - (j + 1) + 1 by omega, List.take_succ_cons]
        constructor
        · rintro ⟨h1, h2⟩
          refine ⟨by omega, ?_⟩
          intro b hbm
          rcases List.mem_cons.mp hbm with rfl | hbm2
          · exact hb
          · exact h2 b hbm2
        · rintro ⟨h1, h2⟩
          exact ⟨by omega, fun b hbm => h2 b (List.mem_cons_of_mem _ hbm)⟩

/-- Any value the unsigned loop returns is below `2 ^ (7 * consumedBytes)`
(shifted by the starting offset): short inputs cannot produce large values. -/
theorem uGo_ok_bound (w : Nat) : ∀ (input : List Nat) (acc shift u : Nat),
    acc < 2 ^ shift → fromLeb128uGo w input acc shift = .ok u →
    u < 2 ^ (shift + 7 * consumedLen input)
  | [], acc, shift, u, hacc, h => by
    simp only [fromLeb128uGo] at h
    have hu : u = acc := tryFromU_eq_ok h
    simp only [consumedLen]
    rw [show shift + 7 * 0 = shift by ring]
    omega
  | byte :: rest, acc, shift, u, hacc, h => by
    simp only [fromLeb128uGo] at h
    by_cases h128 : 128 ≤ shift + 7
    · rw [if_pos h128] at h
      exact absurd h (by simp)
    · rw [if_neg h128] at h
      have hs : shift ≤ 120 := by omega
      rw [step_result hacc hs] at h
      by_cases hb : byte &&& 128 = 0
      · rw [if_pos hb] at h
        have hu : u = acc + (byte &&& 127) * 2 ^ shift := tryFromU_eq_ok h
        simp only [consumedLen, if_pos hb]
        rw [show shift + 7 * 1 = shift + 7 by ring]
        have := step_result_lt (b := byte) hacc
        omega
      · rw [if_neg hb] at h
        have hrec := uGo_ok_bound w rest (acc + (byte &&& 127) * 2 ^ shift) (shift + 7) u
          (step_result_lt hacc) h
        simp only [consumedLen, if_neg hb]
        rw [show shift + 7 * (1 + consumedLen rest) = shift + 7 + 7 * consumedLen rest by ring]
        exact hrec

/-- Any value the signed loop returns from an input that does contain a
terminating byte lies in the symmetric range of `7 * consumedBytes - 1` bits
above the starting offset. -/
theorem iGo_ok_bound (w : Nat) : ∀ (input : List Nat) (acc shift : Nat) (u : Int),
    acc < 2 ^ shift → (∃ b ∈ input, b &&& 128 = 0) →
    fromLeb128iGo w input acc shift = .ok u →
    -(2 ^ (shift + 7 * consumedLen input - 1) : Int) ≤ u ∧
      u < 2 ^ (shift + 7 * consumedLen input - 1)
  | [], acc, shift, u, hacc, hterm, h => by
    simp at hterm
  | byte :: rest, acc, shift, u, hacc, hterm, h => by
    simp only [fromLeb128iGo] at h
    by_cases h128 : 128 ≤ shift + 7
    · rw [if_pos h128] at h
      exact absurd h (by simp)
    · rw [if_neg h128] at h
      have hs : shift ≤ 120 := by omega
      rw [step_result hacc hs] at h
      have hd : byte &&& 127 = byte % 128 := and127_eq_mod byte
      by_cases hb : byte &&& 128 = 0
      · simp only [consumedLen, if_pos hb]
        rw [if_pos hb] at h
        rw [show shift + 7 * 1 - 1 = shift + 6 by omega]
        have ecast : ((2 ^ (shift + 6) : Nat) : Int) = (2 : Int) ^ (shift + 6) := by
          push_cast
          ring
        have e6 : (2 : Nat) ^ (shift + 6) = 2 ^ shift * 2 ^ 6 := by
          rw [Nat.pow_add]
        have e7 : (2 : Nat) ^ (shift + 7) = 2 ^ shift * 2 ^ 7 := by
          rw [Nat.pow_add]
        by_cases h64 : byte &&& 64 ≠ 0
        · rw [if_pos h64] at h
          have hdge : 64 ≤ byte &&& 127 := by
            rw [Ne, and64_eq_zero_iff] at h64
            omega
          rw [lor_highMask_eq_add (shift + 7) (step_result_lt hacc) (by omega)] at h
          have hu := tryFromI_eq_ok h
          have h4 : (2 : Nat) ^ (shift + 7) ≤ 2 ^ 127 :=
            Nat.pow_le_pow_right (by norm_num) (by omega)
          have hbig : 2 ^ 127 ≤ acc + (byte &&& 127) * 2 ^ shift + (2 ^ 128 - 2 ^ (shift + 7)) := by
            omega
          rw [toSigned128_large hbig] at hu
          have hmulle : 64 * 2 ^ shift ≤ (byte &&& 127) * 2 ^ shift :=
            Nat.mul_le_mul_right _ hdge
          have hmulge : (byte &&& 127) * 2 ^ shift ≤ 127 * 2 ^ shift :=
            Nat.mul_le_mul_right _ (by have := and127_lt byte; omega)
          omega
        · rw [if_neg h64] at h
          have hdlt : byte &&& 127 < 64 := by
            rw [not_not, and64_eq_zero_iff] at h64
            omega
          have hsmall : acc + (byte &&& 127) * 2 ^ shift < 2 ^ 127 := by
            have hlt : acc + (byte &&& 127) * 2 ^ shift < 2 ^ (shift + 7) :=
              step_result_lt hacc
            have h4 : (2 : Nat) ^ (shift + 7) ≤ 2 ^ 127 :=
              Nat.pow_le_pow_right (by norm_num) (by omega)
            omega
          have hu := tryFromI_eq_ok h
          rw [toSigned128_small hsmall] at hu
          have hmulge : (byte &&& 127) * 2 ^ shift ≤ 63 * 2 ^ shift :=
            Nat.mul_le_mul_right _ (by omega)
          omega
      · rw [if_neg hb] at h
        obtain ⟨x, hx, hx0⟩ := hterm
        have hxrest : x ∈ rest := by
          rcases List.mem_cons.mp hx with rfl | hm
          · exact absurd hb (by simp [hx0])
          · exact hm
        have hrec := iGo_ok_bound w rest (acc + (byte &&& 127) * 2 ^ shift) (shift + 7) u
          (step_result_lt hacc) ⟨x, hxrest, hx0⟩ h
        simp only [consumedLen, if_neg hb]
        have hc1 : 1 ≤ consumedLen rest := by
          cases rest with
          | nil => simp at hxrest
          | cons y ys =>
            simp only [consumedLen]
            split <;> omega
        rw [show shift + 7 * (1 + consumedLen rest) - 1 =
          shift + 7 + 7 * consumedLen rest - 1 by omega]
        exact hrec

/-- Decoding the unsigned encoding of `v` from any loop state accumulates
exactly `v` at the current shift and hands it to the narrowing step. -/
theorem decode_encode_u_go (w v : Nat) : ∀ (acc shift : Nat), acc < 2 ^ shift →
    shift + 7 * (toLeb128u v).length ≤ 127 →
    fromLeb128uGo w (toLeb128u v) acc shift = tryFromU w (acc + v * 2 ^ shift) := by
  intro acc shift hacc hlen
  by_cases h : v / 128 = 0
  · rw [toLeb128u_stop h] at hlen ⊢
    simp only [List.length_cons, List.length_nil] at hlen
    have hs : shift ≤ 120 := by omega
    have hvlt : v % 128 < 128 := by omega
    simp only [fromLeb128uGo]
    rw [if_neg (by omega : ¬128 ≤ shift + 7), if_pos (term_byte_and128 hvlt),
      step_result hacc hs, term_byte_and127 hvlt, show v % 128 = v by omega]
  · rw [toLeb128u_go h] at hlen ⊢
    simp only [List.length_cons] at hlen
    have hL := toLeb128u_length_pos (v / 128)
    have hs : shift ≤ 113 := by omega
    have hm : v % 128 < 128 := by omega
    simp only [fromLeb128uGo]
    rw [if_neg (by omega : ¬128 ≤ shift + 7), if_neg (cont_of_lor128 hm),
      step_result hacc (by omega), payload_of_lor128 hm]
    rw [decode_encode_u_go w (v / 128) (acc + v % 128 * 2 ^ shift) (shift + 7)
      (acc_step_lt hacc hm) (by omega)]
    have hEq : acc + v % 128 * 2 ^ shift + v / 128 * 2 ^ (shift + 7) =
        acc + v * 2 ^ shift := by
      have hdm : v % 128 + 128 * (v / 128) = v := Nat.mod_add_div v 128
      calc acc + v % 128 * 2 ^ shift + v / 128 * 2 ^ (shift + 7)
          = acc + (v % 128 + 128 * (v / 128)) * 2 ^ shift := by
            rw [Nat.pow_add]
            ring
        _ = acc + v * 2 ^ shift := by rw [hdm]
    rw [hEq]
termination_by v
decreasing_by
  omega

/-- Decoding the signed encoding of `v` from any loop state yields the
128-bit two's-complement pattern of `acc + v * 2 ^ shift` (an integer
reduced into `[0, 2^128)` by the Euclidean remainder) for the narrowing
step. -/
theorem decode_encode_i_go (w : Nat) (v : Int) : ∀ (acc shift : Nat), acc < 2 ^ shift →
    shift + 7 * (toLeb128i v).length ≤ 127 →
    fromLeb128iGo w (toLeb128i v) acc shift =
      tryFromI w (Int.toNat (((acc : Int) + v * 2 ^ shift) % 2 ^ 128)) := by
  intro acc shift hacc hlen
  have hdm : Int.emod v 128 + 128 * Int.ediv v 128 = v := Int.emod_add_ediv v 128
  have hm0 : 0 ≤ Int.emod v 128 := Int.emod_nonneg v (by norm_num)
  have hm1 : Int.emod v 128 < 128 := Int.emod_lt_of_pos v (by norm_num)
  by_cases h : (Int.ediv v 128 = 0 ∧ (Int.emod v 128).toNat &&& 64 = 0) ∨
      (Int.ediv v 128 = -1 ∧ (Int.emod v 128).toNat &&& 64 ≠ 0)
  · rw [toLeb128i_stop h] at hlen ⊢
    simp only [List.length_cons, List.length_nil] at hlen
    have hs : shift ≤ 120 := by omega
    have hdlt : (Int.emod v 128).toNat < 128 := by omega
    have h4 : (2 : Nat) ^ (shift + 7) ≤ 2 ^ 128 :=
      Nat.pow_le_pow_right (by norm_num) (by omega)
    have hNlt : acc + (Int.emod v 128).toNat * 2 ^ shift < 2 ^ 128 :=
      lt_of_lt_of_le (acc_step_lt hacc hdlt) h4
    have ecast7 : (((2 : Nat) ^ (shift + 7) : Nat) : Int) = (2 : Int) ^ (shift + 7) := by
      push_cast
      ring
    simp only [fromLeb128iGo]
    rw [if_neg (by omega : ¬128 ≤ shift + 7), if_pos (term_byte_and128 hdlt),
      step_result hacc hs, term_byte_and127 hdlt]
    rcases h with ⟨hq, h6⟩ | ⟨hq, h6⟩
    · rw [if_neg (by simpa using h6)]
      have hx : (acc : Int) + v * 2 ^ shift =
          ((acc + (Int.emod v 128).toNat * 2 ^ shift : Nat) : Int) := by
        conv_lhs => rw [show v = ((Int.emod v 128).toNat : Int) by omega]
        push_cast
        ring
      have hmod : ((acc : Int) + v * 2 ^ shift) % 2 ^ 128 =
          ((acc + (Int.emod v 128).toNat * 2 ^ shift : Nat) : Int) := by
        rw [hx]
        exact Int.emod_eq_of_lt (by omega) (by exact_mod_cast hNlt)
      rw [hmod]
      refine congrArg (tryFromI w) ?_
      omega
    · rw [if_pos h6]
      rw [lor_highMask_eq_add (shift + 7) (acc_step_lt hacc hdlt) (by omega)]
      have hNlt7 : acc + (Int.emod v 128).toNat * 2 ^ shift < 2 ^ (shift + 7) :=
        acc_step_lt hacc hdlt
      have hx : (acc : Int) + v * 2 ^ shift =
          ((acc + (Int.emod v 128).toNat * 2 ^ shift : Nat) : Int) - 2 ^ (shift + 7) := by
        conv_lhs => rw [show v = ((Int.emod v 128).toNat : Int) - 128 by omega]
        push_cast
        ring
      have hmod : ((acc : Int) + v * 2 ^ shift) % 2 ^ 128 =
          ((acc + (Int.emod v 128).toNat * 2 ^ shift + (2 ^ 128 - 2 ^ (shift + 7)) : Nat) :
            Int) := by
        rw [hx]
        rw [show ((acc + (Int.emod v 128).toNat * 2 ^ shift : Nat) : Int) - 2 ^ (shift + 7) =
          ((acc + (Int.emod v 128).toNat * 2 ^ shift : Nat) : Int) - 2 ^ (shift + 7) +
            2 ^ 128 + 2 ^ 128 * (-1) by ring]
        rw [Int.add_mul_emod_self_left]
        have hstep : (((acc + (Int.emod v 128).toNat * 2 ^ shift : Nat) : Int) -
            2 ^ (shift + 7) + 2 ^ 128) % 2 ^ 128 =
            ((acc + (Int.emod v 128).toNat * 2 ^ shift : Nat) : Int) -
              2 ^ (shift + 7) + 2 ^ 128 :=
          Int.emod_eq_of_lt (by omega) (by omega)
        rw [hstep]
        omega
      rw [hmod]
      refine congrArg (tryFromI w) ?_
      omega
  · rw [toLeb128i_go h] at hlen ⊢
    simp only [List.length_cons] at hlen
    have hL := toLeb128i_length_pos (Int.ediv v 128)
    have hs : shift ≤ 113 := by omega
    have hdlt : (Int.emod v 128).toNat < 128 := by omega
    simp only [fromLeb128iGo]
    rw [if_neg (by omega : ¬128 ≤ shift + 7), if_neg (cont_of_lor128 hdlt),
      step_result hacc (by omega), payload_of_lor128 hdlt]
    rw [decode_encode_i_go w (Int.ediv v 128) (acc + (Int.emod v 128).toNat * 2 ^ shift)
      (shift + 7) (acc_step_lt hacc hdlt) (by omega)]
    have hEq : ((acc + (Int.emod v 128).toNat * 2 ^ shift : Nat) : Int) +
        Int.ediv v 128 * 2 ^ (shift + 7) = (acc : Int) + v * 2 ^ shift := by
      have hvd : ((Int.emod v 128).toNat : Int) = v - 128 * Int.ediv v 128 := by omega
      push_cast
      rw [hvd]
      ring
    rw [hEq]
termination_by v.natAbs
decreasing_by
  have h0 : v ≠ 0 := by
    rintro rfl
    exact h (Or.inl ⟨by decide, by decide⟩)
  have h1 : v ≠ -1 := by
    rintro rfl
    exact h (Or.inr ⟨by decide, by decide⟩)
  omega

/-! ### Claim theorems -/

/-- C1: For every supported integer type (8, 16, 32 and 64 bits, unsigned
and signed) and every value `v` in that type's range, decoding the buffered
encoding of `v` yields `Ok v`: `from_leb128u (to_leb128u v) = Ok v` for the
unsigned types and `from_leb128i (to_leb128i v) = Ok v` for the signed
types. -/
theorem claim_round_trip (w : Nat) (hw : w = 8 ∨ w = 16 ∨ w = 32 ∨ w = 64) :
    (∀ v : Nat, v < 2 ^ w → from_leb128u w (toLeb128u v) = .ok v) ∧
    (∀ v : Int, -(2 ^ (w - 1) : Int) ≤ v → v < 2 ^ (w - 1) →
      from_leb128i w (toLeb128i v) = .ok v) := by
  have hw64 : w ≤ 64 := by rcases hw with rfl | rfl | rfl | rfl <;> norm_num
  constructor
  · intro v hv
    have hvlt : v < 2 ^ (7 * (9 + 1)) :=
      lt_of_lt_of_le hv (Nat.pow_le_pow_right (by norm_num) (by omega))
    have hlen := toLeb128u_length_le 9 v hvlt
    simp only [from_leb128u]
    rw [decode_encode_u_go w v 0 0 (by norm_num) (by omega)]
    simp only [tryFromU, pow_zero, Nat.mul_one, Nat.zero_add, if_pos hv]
  · intro v hl hr
    have hwpow : (2 : Int) ^ (w - 1) ≤ 2 ^ 63 := pow_le_pow_right₀ (by norm_num) (by omega)
    have hlb : -(2 ^ (7 * 9 + 6) : Int) ≤ v := by omega
    have hrb : v < 2 ^ (7 * 9 + 6) := by omega
    have hlen := toLeb128i_length_le 9 v hlb hrb
    simp only [from_leb128i]
    rw [decode_encode_i_go w v 0 0 (by norm_num) (by omega)]
    have hsimp : ((0 : Nat) : Int) + v * 2 ^ 0 = v := by
      push_cast
      ring
    rw [hsimp]
    rcases le_or_lt 0 v with h0 | h0
    · have hmod : v % (2 ^ 128 : Int) = v := Int.emod_eq_of_lt h0 (by omega)
      rw [hmod]
      have ht : toSigned128 v.toNat = v := by
        rw [toSigned128_small (by omega)]
        omega
      simp only [tryFromI, ht, if_pos (And.intro hl hr)]
    · have hmod : v % (2 ^ 128 : Int) = v + 2 ^ 128 := by
        conv_lhs => rw [show v = v + 2 ^ 128 + 2 ^ 128 * (-1) by ring]
        rw [Int.add_mul_emod_self_left]
        exact Int.emod_eq_of_lt (by omega) (by omega)
      rw [hmod]
      have ht : toSigned128 (v + 2 ^ 128).toNat = v := by
        rw [toSigned128_large (by omega)]
        omega
      simp only [tryFromI, ht, if_pos (And.intro hl hr)]

/-- Witness for C1 at width 8 with `v = 200` and `v = -100`. -/
theorem claim_round_trip_witness :
    from_leb128u 8 (toLeb128u 200) = .ok 200 ∧
    from_leb128i 8 (toLeb128i (-100)) = .ok (-100) :=
  ⟨(claim_round_trip 8 (by norm_num)).1 200 (by norm_num),
   (claim_round_trip 8 (by norm_num)).2 (-100) (by norm_num) (by norm_num)⟩

/-- C2: The signed encoder extracts 7-bit groups with an arithmetic
(sign-extending) right shift — floor division by 128 — and emits the final
byte (continuation bit clear) exactly when the remaining value is 0 and
bit 6 of the group is clear, or the remaining value is -1 and bit 6 is set;
in particular `encode(64 : i8) = [0xC0, 0x00]`, `encode(-64) = [0x40]`,
`encode(-65) = [0xBF, 0x7F]` and `encode(127) = [0xFF, 0x00]`. -/
theorem claim_signed_termination :
    toLeb128i 64 = [0xC0, 0x00] ∧ toLeb128i (-64) = [0x40] ∧
    toLeb128i (-65) = [0xBF, 0x7F] ∧ toLeb128i 127 = [0xFF, 0x00] ∧
    (∀ v : Int, (Int.ediv v 128 = 0 ∧ (Int.emod v 128).toNat &&& 64 = 0) ∨
        (Int.ediv v 128 = -1 ∧ (Int.emod v 128).toNat &&& 64 ≠ 0) →
      toLeb128i v = [(Int.emod v 128).toNat]) ∧
    (∀ v : Int, ¬((Int.ediv v 128 = 0 ∧ (Int.emod v 128).toNat &&& 64 = 0) ∨
        (Int.ediv v 128 = -1 ∧ (Int.emod v 128).toNat &&& 64 ≠ 0)) →
      toLeb128i v = ((Int.emod v 128).toNat ||| 128) :: toLeb128i (Int.ediv v 128)) := by
  refine ⟨?_, ?_, ?_, ?_, fun v h => toLeb128i_stop h, fun v h => toLeb128i_go h⟩
  · rw [toLeb128i_go (by decide), show Int.ediv 64 128 = 0 from by decide,
      toLeb128i_stop (by decide)]
    decide
  · rw [toLeb128i_stop (by decide)]
    decide
  · rw [toLeb128i_go (by decide), show Int.ediv (-65) 128 = -1 from by decide,
      toLeb128i_stop (by decide)]
    decide
  · rw [toLeb128i_go (by decide), show Int.ediv 127 128 = 0 from by decide,
      toLeb128i_stop (by decide)]
    decide

/-- Witness for C2: the continuation case of the termination rule applies at
`v = 64`. -/
theorem claim_signed_termination_witness :
    ¬((Int.ediv (64 : Int) 128 = 0 ∧ (Int.emod (64 : Int) 128).toNat &&& 64 = 0) ∨
      (Int.ediv (64 : Int) 128 = -1 ∧ (Int.emod (64 : Int) 128).toNat &&& 64 ≠ 0)) ∧
    toLeb128i 64 =
      ((Int.emod (64 : Int) 128).toNat ||| 128) :: toLeb128i (Int.ediv (64 : Int) 128) :=
  ⟨by decide, claim_signed_termination.2.2.2.2.2 64 (by decide)⟩

/-- C3: Buffered decode fails with `TooLongBytes` if and only if the input
holds at least 19 bytes whose first 18 all have the continuation bit set —
the shift offset reaches the 128-bit accumulator width on the 19th byte,
before that byte's continuation bit is even examined, while any input whose
terminating byte arrives among the first 18 is never rejected by this
guard. -/
theorem claim_too_long_bytes (w : Nat) (input : List Nat) :
    (from_leb128u w input = .error .TooLongBytes ↔
      19 ≤ input.length ∧ ∀ b ∈ input.take 18, b &&& 128 ≠ 0) ∧
    (from_leb128i w input = .error .TooLongBytes ↔
      19 ≤ input.length ∧ ∀ b ∈ input.take 18, b &&& 128 ≠ 0) := by
  constructor
  · have h := uGo_tooLong w input 0 0 (by norm_num)
    simpa [from_leb128u] using h
  · have h := iGo_tooLong w input 0 0 (by norm_num)
    simpa [from_leb128i] using h

/-- C4 counterexample: decoding the empty slice does not fail — both
buffered decoders return `Ok 0`, contradicting the claim that running out of
input before a terminating byte is an error. -/
theorem claim_eof_error_cex :
    from_leb128u 8 ([] : List Nat) = .ok 0 ∧ from_leb128i 8 ([] : List Nat) = .ok 0 :=
  ⟨rfl, rfl⟩

/-- C4 (amended): The buffered decoders do NOT treat running out of input
before a terminating byte as an error.  Decoding an empty slice or any slice
all of whose bytes have the continuation bit set (and that does not trip the
shift-budget guard) returns the narrowing of the partially accumulated
payload — `Ok 0` for the empty slice — and in particular never the
missing-terminator / `TooLongBytes` error; only the range check can fail. -/
theorem claim_eof_permissive (w : Nat) (input : List Nat)
    (hc : ∀ b ∈ input, b &&& 128 ≠ 0) (hl : input.length ≤ 18) :
    from_leb128u w input = tryFromU w (lebPayload input) ∧
    from_leb128i w input = tryFromI w (lebPayload input) ∧
    from_leb128u w input ≠ .error .TooLongBytes ∧
    from_leb128i w input ≠ .error .TooLongBytes ∧
    from_leb128u w ([] : List Nat) = .ok 0 := by
  have h1 := uGo_allCont w input 0 0 hc (by omega) (by norm_num)
  have h2 := iGo_allCont w input 0 0 hc (by omega) (by norm_num)
  simp only [pow_zero, Nat.mul_one, Nat.zero_add] at h1 h2
  refine ⟨?_, ?_, ?_, ?_, ?_⟩
  · simp only [from_leb128u]
    rw [h1]
  · simp only [from_leb128i]
    rw [h2]
  · simp only [from_leb128u]
    rw [h1]
    exact tryFromU_ne_tooLong _ _
  · simp only [from_leb128i]
    rw [h2]
    exact tryFromI_ne_tooLong _ _
  · simp only [from_leb128u, fromLeb128uGo, tryFromU]
    rw [if_pos (Nat.two_pow_pos w)]

/-- Witness for C4 (amended) on the all-continuation slice `[0x80]`. -/
theorem claim_eof_permissive_witness :
    from_leb128u 8 [0x80] = tryFromU 8 (lebPayload [0x80]) ∧
    from_leb128i 8 [0x80] = tryFromI 8 (lebPayload [0x80]) ∧
    from_leb128u 8 [0x80] ≠ .error .TooLongBytes ∧
    from_leb128i 8 [0x80] ≠ .error .TooLongBytes ∧
    from_leb128u 8 ([] : List Nat) = .ok 0 :=
  claim_eof_permissive 8 [0x80] (by decide) (by decide)

/-- C5: After accumulation stops at a terminating byte, buffered decode
narrows the 128-bit intermediate into the target type and fails with the
range error `TryFromInt` exactly when the accumulated value lies outside the
target type's range — stated for the unsigned decoder as the two
biconditionals, for the signed decoder via the (sign-extended) accumulator
pattern handed to the narrowing step, and for the narrowing step itself as
the exact range characterisation.  See the witness for the examples
`[0x80, 0x02]` as 8-bit (fails) and as 16-bit (`Ok 256`). -/
theorem claim_narrow_overflow (w : Nat) (p : List Nat) (b : Nat) (rest : List Nat)
    (hp : ∀ x ∈ p, x &&& 128 ≠ 0) (hb : b &&& 128 = 0) (hl : p.length ≤ 17) :
    (from_leb128u w (p ++ b :: rest) = .ok (lebPayload (p ++ [b])) ↔
      lebPayload (p ++ [b]) < 2 ^ w) ∧
    (from_leb128u w (p ++ b :: rest) = .error .TryFromInt ↔
      ¬lebPayload (p ++ [b]) < 2 ^ w) ∧
    (from_leb128i w (p ++ b :: rest) =
      tryFromI w (if b &&& 64 = 0 then lebPayload (p ++ [b])
        else lebPayload (p ++ [b]) + (2 ^ 128 - 2 ^ (7 * (p.length + 1))))) ∧
    (∀ r : Nat, tryFromI w r = .error .TryFromInt ↔
      ¬(-(2 ^ (w - 1) : Int) ≤ toSigned128 r ∧ toSigned128 r < 2 ^ (w - 1))) := by
  have hu := uGo_split w p b rest 0 0 hp hb (by omega) (by norm_num)
  have hi := iGo_split w p b rest 0 0 hp hb (by omega) (by norm_num)
  simp only [pow_zero, Nat.mul_one, Nat.zero_add] at hu hi
  refine ⟨?_, ?_, ?_, ?_⟩
  · simp only [from_leb128u]
    rw [hu]
    by_cases hP : lebPayload (p ++ [b]) < 2 ^ w
    · simp [tryFromU, hP]
    · simp [tryFromU, hP]
  · simp only [from_leb128u]
    rw [hu]
    by_cases hP : lebPayload (p ++ [b]) < 2 ^ w
    · simp [tryFromU, hP]
    · simp [tryFromU, hP]
  · simp only [from_leb128i]
    rw [hi]
    exact (apply_ite (tryFromI w) _ _ _).symm
  · intro r
    by_cases hr : -(2 ^ (w - 1) : Int) ≤ toSigned128 r ∧ toSigned128 r < 2 ^ (w - 1)
    · simp [tryFromI, hr]
    · simp [tryFromI, hr]

/-- Witness for C5: `[0x80, 0x02]` (accumulated value 256) fails as `u8` and
decodes to `Ok 256` as `u16`. -/
theorem claim_narrow_overflow_witness :
    from_leb128u 8 [0x80, 0x02] = .error .TryFromInt ∧
    from_leb128u 16 [0x80, 0x02] = .ok 256 := by
  constructor
  · have h := (claim_narrow_overflow 8 [0x80] 2 [] (by decide) (by decide) (by decide)).2.1
    have h2 : ¬lebPayload ([0x80] ++ [2]) < 2 ^ 8 := by decide
    simpa using h.mpr h2
  · have h := (claim_narrow_overflow 16 [0x80] 2 [] (by decide) (by decide) (by decide)).1
    have h2 : lebPayload ([0x80] ++ [2]) < 2 ^ 16 := by decide
    have h3 := h.mpr h2
    simpa [show lebPayload ([0x80] ++ [2]) = 256 from by decide] using h3

/-- C6: In signed buffered decode, a terminating byte with bit 6 set
sign-extends the accumulator by OR-ing ones above the shift offset — so the
single byte `[0x7F]` decodes to `Ok (-1)` and `[0x40]` to `Ok (-64)` for
every signed target width — while any successful decode whose terminating
byte has bit 6 clear yields a non-negative value. -/
theorem claim_sign_extension (w : Nat) (hw : w = 8 ∨ w = 16 ∨ w = 32 ∨ w = 64)
    (p : List Nat) (b : Nat) (rest : List Nat) (v : Int)
    (hp : ∀ x ∈ p, x &&& 128 ≠ 0) (hb : b &&& 128 = 0) (h6 : b &&& 64 = 0)
    (hl : p.length ≤ 17) (hok : from_leb128i w (p ++ b :: rest) = .ok v) :
    0 ≤ v ∧ from_leb128i w [0x7F] = .ok (-1) ∧ from_leb128i w [0x40] = .ok (-64) := by
  refine ⟨?_, ?_, ?_⟩
  · have hs := iGo_split w p b rest 0 0 hp hb (by omega) (by norm_num)
    rw [if_pos h6] at hs
    simp only [pow_zero, Nat.mul_one, Nat.zero_add] at hs
    simp only [from_leb128i] at hok
    rw [hs] at hok
    have hv := tryFromI_eq_ok hok
    have hlenpb : (p ++ [b]).length = p.length + 1 := by simp
    have hPlt : lebPayload (p ++ [b]) < 2 ^ 127 := by
      have h1 := lebPayload_lt (p ++ [b])
      have h2 : (2 : Nat) ^ (7 * (p ++ [b]).length) ≤ 2 ^ 127 := by
        apply Nat.pow_le_pow_right (by norm_num)
        omega
      omega
    rw [toSigned128_small hPlt] at hv
    omega
  · rcases hw with rfl | rfl | rfl | rfl <;> rfl
  · rcases hw with rfl | rfl | rfl | rfl <;> rfl

/-- Witness for C6 at `w = 8` with the one-byte input `[0x05]`. -/
theorem claim_sign_extension_witness :
    (0 : Int) ≤ 5 ∧ from_leb128i 8 [0x7F] = .ok (-1) ∧ from_leb128i 8 [0x40] = .ok (-64) :=
  claim_sign_extension 8 (by norm_num) [] 5 [] 5 (by simp) (by decide) (by decide)
    (by decide) (by rfl)

/-- C7: For every supported width and every value in range, the encoded byte
sequence has length at least 1 (even for 0) and at most `ceil (w / 7)` bytes
(2 for 8-bit, 3 for 16-bit, 5 for 32-bit, 10 for 64-bit), for both
`to_leb128u` and `to_leb128i`. -/
theorem claim_length_bounds (w : Nat) (hw : w = 8 ∨ w = 16 ∨ w = 32 ∨ w = 64) :
    (∀ v : Nat, v < 2 ^ w →
      1 ≤ (toLeb128u v).length ∧ (toLeb128u v).length ≤ (w + 6) / 7) ∧
    (∀ v : Int, -(2 ^ (w - 1) : Int) ≤ v → v < 2 ^ (w - 1) →
      1 ≤ (toLeb128i v).length ∧ (toLeb128i v).length ≤ (w + 6) / 7) := by
  constructor
  · intro v hv
    refine ⟨toLeb128u_length_pos v, ?_⟩
    rcases hw with rfl | rfl | rfl | rfl
    · have := toLeb128u_length_le 1 v
        (lt_of_lt_of_le hv (Nat.pow_le_pow_right (by norm_num) (by norm_num)))
      omega
    · have := toLeb128u_length_le 2 v
        (lt_of_lt_of_le hv (Nat.pow_le_pow_right (by norm_num) (by norm_num)))
      omega
    · have := toLeb128u_length_le 4 v
        (lt_of_lt_of_le hv (Nat.pow_le_pow_right (by norm_num) (by norm_num)))
      omega
    · have := toLeb128u_length_le 9 v
        (lt_of_lt_of_le hv (Nat.pow_le_pow_right (by norm_num) (by norm_num)))
      omega
  · intro v hl hr
    refine ⟨toLeb128i_length_pos v, ?_⟩
    rcases hw with rfl | rfl | rfl | rfl
    · have := toLeb128i_length_le 1 v (by norm_num at hl ⊢; omega) (by norm_num at hr ⊢; omega)
      omega
    · have := toLeb128i_length_le 2 v (by norm_num at hl ⊢; omega) (by norm_num at hr ⊢; omega)
      omega
    · have := toLeb128i_length_le 4 v (by norm_num at hl ⊢; omega) (by norm_num at hr ⊢; omega)
      omega
    · have := toLeb128i_length_le 9 v (by norm_num at hl ⊢; omega) (by norm_num at hr ⊢; omega)
      omega

/-- Witness for C7 at width 8 with `v = 200` and `v = -100`. -/
theorem claim_length_bounds_witness :
    (1 ≤ (toLeb128u 200).length ∧ (toLeb128u 200).length ≤ (8 + 6) / 7) ∧
    (1 ≤ (toLeb128i (-100)).length ∧ (toLeb128i (-100)).length ≤ (8 + 6) / 7) :=
  ⟨(claim_length_bounds 8 (by norm_num)).1 200 (by norm_num),
   (claim_length_bounds 8 (by norm_num)).2 (-100) (by norm_num) (by norm_num)⟩

/-- C8: The non-canonical 2-byte encoding of 1 for an 8-bit target,
`[0x81, 0x00]`, fails streaming decode with `Malformed` (streaming decoder
modelled from the spec, see `streamFromLeb128u`), while the buffered
`from_leb128u` as `u8` accepts it and returns `Ok 1`: the shift guard is not
tripped and the accumulated value 1 fits the target range. -/
theorem claim_non_canonical_streaming :
    streamFromLeb128u 8 [0x81, 0x00] = .error .Malformed ∧
    from_leb128u 8 [0x81, 0x00] = .ok 1 :=
  ⟨rfl, rfl⟩

/-- C9 counterexample: strictly shorter byte sequences can decode to the
same value, because the buffered decoders accept truncated input — the empty
slice (shorter than `encode 0 = [0x00]`) decodes to `Ok 0`, and `[0xFF]`
(shorter than `encode (127 : i8) = [0xFF, 0x00]`) decodes to `Ok 127`. -/
theorem claim_minimality_cex :
    (List.length ([] : List Nat) < (toLeb128u 0).length ∧ from_leb128u 8 [] = .ok 0) ∧
    (List.length [0xFF] < (toLeb128i 127).length ∧ from_leb128i 8 [0xFF] = .ok 127) := by
  refine ⟨⟨?_, rfl⟩, ⟨?_, rfl⟩⟩
  · rw [toLeb128u_stop (by norm_num)]
    simp
  · rw [toLeb128i_go (by decide), show Int.ediv 127 128 = 0 from by decide,
      toLeb128i_stop (by decide)]
    simp

/-- C9 (amended): Encoding is canonically minimal among complete LEB128
inputs: no byte sequence that is strictly shorter than `encode v` and
contains a byte with a clear continuation bit (i.e. is not a truncated
input, which the permissive buffered decoder also accepts) decodes to
`Ok v`, for either decoder. -/
theorem claim_minimality_complete (w : Nat) (input : List Nat)
    (hterm : ∃ b ∈ input, b &&& 128 = 0) :
    (∀ v : Nat, input.length < (toLeb128u v).length → from_leb128u w input ≠ .ok v) ∧
    (∀ v : Int, input.length < (toLeb128i v).length → from_leb128i w input ≠ .ok v) := by
  obtain ⟨x, hx, hx0⟩ := hterm
  have hlen1 : 1 ≤ input.length := by
    cases input with
    | nil => simp at hx
    | cons y ys => simp
  have hc1 : 1 ≤ consumedLen input := by
    cases input with
    | nil => simp at hx
    | cons y ys =>
      simp only [consumedLen]
      split <;> omega
  have hcle := consumedLen_le input
  constructor
  · intro v hlt hok
    simp only [from_leb128u] at hok
    have hb := uGo_ok_bound w input 0 0 v (by norm_num) hok
    have hmono : (2 : Nat) ^ (0 + 7 * consumedLen input) ≤
        2 ^ (7 * (input.length - 1 + 1)) :=
      Nat.pow_le_pow_right (by norm_num) (by omega)
    have hvlt : v < 2 ^ (7 * (input.length - 1 + 1)) := by omega
    have := toLeb128u_length_le (input.length - 1) v hvlt
    omega
  · intro v hlt hok
    simp only [from_leb128i] at hok
    have hb := iGo_ok_bound w input 0 0 v (by norm_num) ⟨x, hx, hx0⟩ hok
    have hmono : (2 : Int) ^ (0 + 7 * consumedLen input - 1) ≤
        2 ^ (7 * (input.length - 1) + 6) :=
      pow_le_pow_right₀ (by norm_num) (by omega)
    have hlb : -(2 ^ (7 * (input.length - 1) + 6) : Int) ≤ v := by
      have := hb.1
      omega
    have hrb : v < 2 ^ (7 * (input.length - 1) + 6) := lt_of_lt_of_le hb.2 hmono
    have := toLeb128i_length_le (input.length - 1) v hlb hrb
    omega

/-- Witness for C9 (amended): the complete input `[0x05]` cannot decode to
300, whose encodings are 2 bytes long. -/
theorem claim_minimality_complete_witness :
    from_leb128u 8 [0x05] ≠ .ok 300 ∧ from_leb128i 8 [0x05] ≠ .ok 300 := by
  have h := claim_minimality_complete 8 [0x05] ⟨0x05, by decide, by decide⟩
  constructor
  · refine h.1 300 ?_
    rw [toLeb128u_go (by norm_num), show (300 : Nat) / 128 = 2 from by norm_num,
      toLeb128u_stop (by norm_num)]
    simp
  · refine h.2 300 ?_
    rw [toLeb128i_go (by decide), show Int.ediv 300 128 = 2 from by decide,
      toLeb128i_stop (by decide)]
    simp

/-- C10: Buffered decode consumes only the bytes up to and including the
first byte with a clear continuation bit: with an all-continuation prefix
`p` inside the shift budget and a terminating byte `b`, decoding
`p ++ [b] ++ rest` gives the same result as decoding `p ++ [b]` alone, for
any trailing bytes `rest` — trailing garbage is silently ignored and never
causes an error. -/
theorem claim_trailing_ignored (w : Nat) (p : List Nat) (b : Nat) (rest : List Nat)
    (hp : ∀ x ∈ p, x &&& 128 ≠ 0) (hb : b &&& 128 = 0) (hl : p.length ≤ 17) :
    from_leb128u w (p ++ b :: rest) = from_leb128u w (p ++ [b]) ∧
    from_leb128i w (p ++ b :: rest) = from_leb128i w (p ++ [b]) := by
  have hbudget : (0 : Nat) + 7 * (p.length + 1) ≤ 127 := by omega
  constructor
  · simp only [from_leb128u]
    rw [uGo_split w p b rest 0 0 hp hb hbudget (by norm_num),
      uGo_split w p b [] 0 0 hp hb hbudget (by norm_num)]
  · simp only [from_leb128i]
    rw [iGo_split w p b rest 0 0 hp hb hbudget (by norm_num),
      iGo_split w p b [] 0 0 hp hb hbudget (by norm_num)]

/-- Witness for C10: two trailing garbage bytes after the terminator of
`[0x80, 0x01]` do not change the decode result. -/
theorem claim_trailing_ignored_witness :
    from_leb128u 8 ([0x80] ++ 0x01 :: [0xFF, 0x03]) = from_leb128u 8 ([0x80] ++ [0x01]) ∧
    from_leb128i 8 ([0x80] ++ 0x01 :: [0xFF, 0x03]) = from_leb128i 8 ([0x80] ++ [0x01]) :=
  claim_trailing_ignored 8 [0x80] 0x01 [0xFF, 0x03] (by decide) (by decide) (by decide)

end Leb128
